import Mathlib

/-!
Verification of the fivethirtyeight-vs-predictit reconciliation engine
(`task.py`): PredictIt market contracts and FiveThirtyEight forecasts are
joined per race, eight signed profit values are computed, the best action per
trade direction is selected, and the results are filtered and ranked.

This file shallowly embeds the numeric pipeline: pandas DataFrames become
lists of records, nullable float columns become `Option ℚ`, NaN propagation
becomes `Option.map`, and a run-aborting exception becomes `none` in an
`Option`-valued pipeline stage.  Definitions are translated from the source;
the few definitions written from the specification's wording instead are
marked as such in their doc comments.
-/

attribute [local semireducible] Rat.add Rat.sub Rat.mul Rat.inv

/-! ### ASCII upper-casing (Python `str.upper` on the ASCII data involved) -/

/-- Uppercase a single character, ASCII-only, as Python `str.upper` acts on
the ASCII strings this program manipulates. -/
def upChar (c : Char) : Char :=
  if 97 ≤ c.toNat ∧ c.toNat ≤ 122 then Char.ofNat (c.toNat - 32) else c

/-- Uppercase a string: `'OH-Sen'.upper() = 'OH-SEN'`. -/
def upperStr (s : String) : String :=
  String.mk (s.data.map upChar)

/-- Test for an uppercase ASCII letter, the regex character class `[A-Z]`. -/
def isUpperAZ (c : Char) : Bool :=
  decide (65 ≤ c.toNat) && decide (c.toNat ≤ 90)

/-! ### The two market-label patterns of `_CHAMBERS['patterns']`

`senate   = 'Which party will win the ([A-Z]{2}) (Sen)ate race'`
`governor = 'Which party will win ([A-Z]{2}) (gov)ernor\'s race?'`

Each pattern is embedded as a matcher at one position plus a scan over all
start positions (the semantics of `re.search`: leftmost match wins).  A match
returns the two capture groups. -/

/-- Consume a literal prefix, returning the remaining characters. -/
def litMatch : List Char → List Char → Option (List Char)
  | [], cs => some cs
  | _, [] => none
  | l :: ls, c :: cs => if c = l then litMatch ls cs else none

/-- Match the senate pattern at the current position.  Groups:
the two-letter state code and the literal `"Sen"`. -/
def senateAt (cs : List Char) : Option (String × String) :=
  match litMatch "Which party will win the ".data cs with
  | none => none
  | some cs₁ =>
    match cs₁ with
    | a :: b :: cs₂ =>
      if isUpperAZ a && isUpperAZ b then
        match litMatch " Senate race".data cs₂ with
        | none => none
        | some _ => some (String.mk [a, b], "Sen")
      else none
    | _ => none

/-- Match the governor pattern at the current position.  Groups: the
two-letter state code and the literal `"gov"`.  The regex's trailing `e?` is
optional, so a search only has to reach `"ernor's rac"`. -/
def governorAt (cs : List Char) : Option (String × String) :=
  match litMatch "Which party will win ".data cs with
  | none => none
  | some cs₁ =>
    match cs₁ with
    | a :: b :: cs₂ =>
      if isUpperAZ a && isUpperAZ b then
        match litMatch " governor's rac".data cs₂ with
        | none => none
        | some _ => some (String.mk [a, b], "gov")
      else none
    | _ => none

/-- Scan all start positions, leftmost first (`re.search`). -/
def searchPat (patAt : List Char → Option (String × String)) :
    List Char → Option (String × String)
  | [] => patAt []
  | c :: cs =>
    match patAt (c :: cs) with
    | some g => some g
    | none => searchPat patAt cs

/-- The two race-type categories of `_CHAMBERS['names']`. -/
inductive Chamber
  | senate
  | governor
deriving DecidableEq

/-- Apply the chamber's pattern to a market label, as
`re.search(pattern, x)` in `_filter_pi_data`. -/
def chamberSearch : Chamber → String → Option (String × String)
  | Chamber.senate, s => searchPat senateAt s.data
  | Chamber.governor, s => searchPat governorAt s.data

/-- The second capture group each pattern produces when it matches. -/
def tokStr : Chamber → String
  | Chamber.senate => "Sen"
  | Chamber.governor => "gov"

/-- The uppercased race-type token appearing in a race key. -/
def upTok : Chamber → String
  | Chamber.senate => "SEN"
  | Chamber.governor => "GOV"

/-- The race key obtained from a state code for a chamber
(`'-'.join(groups).upper()`, e.g. `"OH-SEN"`). -/
def raceKeyOf (ch : Chamber) (st : String) : String :=
  st ++ "-" ++ upTok ch

/-! ### First-occurrence de-duplication (pandas `drop_duplicates(keep='first')`) -/

/-- Keep each element whose key has not been seen before. -/
def dedupFirstByAux {α β : Type} (key : α → β) [DecidableEq β] :
    List α → List β → List α
  | [], _ => []
  | x :: xs, seen =>
    if key x ∈ seen then dedupFirstByAux key xs seen
    else x :: dedupFirstByAux key xs (key x :: seen)

/-- pandas `drop_duplicates(keep='first', subset=key)`: keep the first row
for each key, in order. -/
def dedupFirstBy {α β : Type} (key : α → β) [DecidableEq β] (l : List α) :
    List α :=
  dedupFirstByAux key l []

/-! ### Data model: market contracts (PredictIt side) -/

/-- One tradable contract inside a market object of the PredictIt payload.
Prices are nullable probabilities (`None` in the JSON becomes NaN in pandas,
modelled here as `none`). -/
structure Contract where
  name : String
  bestBuyYesCost : Option ℚ
  bestBuyNoCost : Option ℚ
  bestSellYesCost : Option ℚ
  bestSellNoCost : Option ℚ
deriving DecidableEq

/-- One market object of the PredictIt payload. -/
structure Market where
  shortName : String
  url : String
  contracts : List Contract
deriving DecidableEq

/-- One row of the market-contract table (`_get_pi_contracts`): market fields
prefixed `m`, contract fields prefixed `c` in the source; the `cbest` price
columns are renamed to `best` by `_filter_pi_data`, so the price fields carry
their post-rename names here. -/
structure PiRow where
  mshortName : String
  murl : String
  cname : String
  bestBuyYesCost : Option ℚ
  bestBuyNoCost : Option ℚ
  bestSellYesCost : Option ℚ
  bestSellNoCost : Option ℚ
deriving DecidableEq

/-- `_get_pi_contracts(market, contract)`. -/
def getPiContracts (m : Market) (c : Contract) : PiRow :=
  { mshortName := m.shortName
    murl := m.url
    cname := c.name
    bestBuyYesCost := c.bestBuyYesCost
    bestBuyNoCost := c.bestBuyNoCost
    bestSellYesCost := c.bestSellYesCost
    bestSellNoCost := c.bestSellNoCost }

/-- The raw contract rows, one per (market, contract) pair, before
de-duplication (the list built inside `_get_pi_markets`). -/
def rawContractRows (ms : List Market) : List PiRow :=
  ms.flatMap fun m => m.contracts.map (getPiContracts m)

/-- `_get_pi_markets`: flatten all contracts of all markets into rows and
apply `drop_duplicates()` over all columns, keeping first occurrences. -/
def getPiMarkets (ms : List Market) : List PiRow :=
  dedupFirstBy id (rawContractRows ms)

/-- A contract row tagged with the optional `state` and `seat` columns added
by `_filter_pi_data`. -/
structure TaggedRow where
  mshortName : String
  murl : String
  cname : String
  bestBuyYesCost : Option ℚ
  bestBuyNoCost : Option ℚ
  bestSellYesCost : Option ℚ
  bestSellNoCost : Option ℚ
  state : Option String
  seat : Option String
deriving DecidableEq

/-- The per-row work of `_filter_pi_data`: search the chamber pattern in the
market label; `state` is capture group 1, `seat` is
`'-'.join(groups).upper()`; both are null on a non-match. -/
def tagRow (ch : Chamber) (p : PiRow) : TaggedRow :=
  let m := chamberSearch ch p.mshortName
  { mshortName := p.mshortName
    murl := p.murl
    cname := p.cname
    bestBuyYesCost := p.bestBuyYesCost
    bestBuyNoCost := p.bestBuyNoCost
    bestSellYesCost := p.bestSellYesCost
    bestSellNoCost := p.bestSellNoCost
    state := m.map Prod.fst
    seat := m.map fun g => upperStr (g.1 ++ "-" ++ g.2) }

/-! ### Data model: forecast rows (FiveThirtyEight side) -/

/-- One row of the forecast CSV restricted to the columns read by
`_get_fte_data` (`usecols`). -/
structure FteRawRow where
  district : String
  expression : String
  winner_Dparty : ℚ
  winner_Rparty : ℚ
deriving DecidableEq

/-- `_FORECAST_EXPRESSION`. -/
def forecastExpression : String := "_classic"

/-- The variant filter `fte[fte.expression == _FORECAST_EXPRESSION]`. -/
def fteFiltered (l : List FteRawRow) : List FteRawRow :=
  l.filter fun r => r.expression == forecastExpression

/-- The variant filter followed by
`drop_duplicates(keep='first', subset='district')`. -/
def fteDeduped (l : List FteRawRow) : List FteRawRow :=
  dedupFirstBy (fun r => r.district) (fteFiltered l)

/-- `x.split('-', 1)[0]`: the district prefix before the first dash (the
whole string when there is no dash). -/
def stateOfDistrict (d : String) : String :=
  String.mk (d.data.takeWhile fun c => c ≠ '-')

/-- A prepared forecast record after `_get_fte_data` drops the `expression`
and `district` columns: state code plus the two win probabilities. -/
structure FteRow where
  state : String
  fteD : ℚ
  fteR : ℚ
deriving DecidableEq

/-- Projection of a filtered, de-duplicated row to the final forecast
columns of `_get_fte_data` (renamed `fteD`/`fteR` in `merge_fte_and_pi`). -/
def toFteRow (r : FteRawRow) : FteRow :=
  { state := stateOfDistrict r.district
    fteD := r.winner_Dparty
    fteR := r.winner_Rparty }

/-- `_get_fte_data` as a whole, with the CSV contents as input (the HTTP
fetch is the out-of-scope collaborator). -/
def getFteData (l : List FteRawRow) : List FteRow :=
  (fteDeduped l).map toFteRow

/-! ### The Dataset Joiner (`merge_fte_and_pi`) -/

/-- One joined race: a D/R contract pair plus the forecast probabilities
(columns of the frame returned by `merge_fte_and_pi`, the `state` helper
column already dropped). -/
structure JoinedRace where
  mshortName : String
  murl : String
  seat : String
  bestBuyYesCostD : Option ℚ
  bestBuyNoCostD : Option ℚ
  bestSellYesCostD : Option ℚ
  bestSellNoCostD : Option ℚ
  bestBuyYesCostR : Option ℚ
  bestBuyNoCostR : Option ℚ
  bestSellYesCostR : Option ℚ
  bestSellNoCostR : Option ℚ
  fteD : ℚ
  fteR : ℚ
deriving DecidableEq

/-- Assemble a joined row from a Democratic contract row, a Republican
contract row and a forecast record (the column picture after the two
`merge` calls, suffixes `D`/`R`). -/
def mkJoined (d r : TaggedRow) (f : FteRow) : JoinedRace :=
  { mshortName := d.mshortName
    murl := d.murl
    seat := d.seat.getD ""
    bestBuyYesCostD := d.bestBuyYesCost
    bestBuyNoCostD := d.bestBuyNoCost
    bestSellYesCostD := d.bestSellYesCost
    bestSellNoCostD := d.bestSellNoCost
    bestBuyYesCostR := r.bestBuyYesCost
    bestBuyNoCostR := r.bestBuyNoCost
    bestSellYesCostR := r.bestSellYesCost
    bestSellNoCostR := r.bestSellNoCost
    fteD := f.fteD
    fteR := f.fteR }

/-- The tagged rows surviving `pi[pi.state.notna()]`. -/
def filteredPi (piData : List PiRow) (ch : Chamber) : List TaggedRow :=
  (piData.map (tagRow ch)).filter fun r => r.state.isSome

/-- `merge_fte_and_pi`: tag and filter the contract rows, split them into the
two party groups (`cname == 'Democratic'` / `'Republican'`, inner-joined on
`mshortName`, `murl`, `state` and `seat`), then inner-join with the prepared
forecast rows on `state`.  The forecast table is a parameter (its fetch is
the external collaborator). -/
def mergeFteAndPi (piData : List PiRow) (ch : Chamber) (fte : List FteRow) :
    List JoinedRace :=
  let pi := filteredPi piData ch
  let dems := pi.filter fun r => r.cname == "Democratic"
  let reps := pi.filter fun r => r.cname == "Republican"
  dems.flatMap fun d =>
    (reps.filter fun r =>
        r.mshortName == d.mshortName && r.murl == d.murl &&
        r.state == d.state && r.seat == d.seat).flatMap fun r =>
      (fte.filter fun f => d.state == some f.state).map fun f => mkJoined d r f

/-! ### The Profit Calculator (`add_profit_columns`) -/

/-- A joined row with the eight profit columns of `add_profit_columns`
attached.  Pandas subtraction of a float column and a nullable column
propagates NaN, hence `Option.map`. -/
structure ProfitRow extends JoinedRace where
  profit_bestBuyYesCostD : Option ℚ
  profit_bestBuyNoCostR : Option ℚ
  profit_bestBuyYesCostR : Option ℚ
  profit_bestBuyNoCostD : Option ℚ
  profit_bestSellYesCostD : Option ℚ
  profit_bestSellNoCostR : Option ℚ
  profit_bestSellYesCostR : Option ℚ
  profit_bestSellNoCostD : Option ℚ
deriving DecidableEq

/-- `add_profit_columns`, one row at a time. -/
def add_profit_columns (m : JoinedRace) : ProfitRow :=
  { m with
    profit_bestBuyYesCostD := m.bestBuyYesCostD.map fun p => m.fteD - p
    profit_bestBuyNoCostR := m.bestBuyNoCostR.map fun p => m.fteD - p
    profit_bestBuyYesCostR := m.bestBuyYesCostR.map fun p => m.fteR - p
    profit_bestBuyNoCostD := m.bestBuyNoCostD.map fun p => m.fteR - p
    profit_bestSellYesCostD := m.bestSellYesCostD.map fun p => p - m.fteD
    profit_bestSellNoCostR := m.bestSellNoCostR.map fun p => p - m.fteD
    profit_bestSellYesCostR := m.bestSellYesCostR.map fun p => p - m.fteR
    profit_bestSellNoCostD := m.bestSellNoCostD.map fun p => p - m.fteR }

/-! ### The Action Selector (`add_action_columns`) -/

/-- Outcome side of a contract. -/
inductive Side
  | yes
  | no
deriving DecidableEq

/-- Party of a contract. -/
inductive Party
  | D
  | R
deriving DecidableEq

/-- Trade direction. -/
inductive Dir
  | buy
  | sell
deriving DecidableEq

/-- `side` as the lowercase string stored in the `actionSide` column. -/
def dirStr : Dir → String
  | Dir.buy => "buy"
  | Dir.sell => "sell"

/-- `side.title()`, the first regex group recovered from a profit column
name. -/
def dirTitle : Dir → String
  | Dir.buy => "Buy"
  | Dir.sell => "Sell"

/-- The `Yes`/`No` component of a profit column name. -/
def sideTitle : Side → String
  | Side.yes => "Yes"
  | Side.no => "No"

/-- `dict(D='Democrat', R='Republican')`. -/
def partyName : Party → String
  | Party.D => "Democrat"
  | Party.R => "Republican"

/-- The recommendation string
`'{} {} on the {}'.format(x[0], x[1], dict(D=..., R=...)[x[2]])`. -/
def actionLabel (d : Dir) (s : Side) (p : Party) : String :=
  dirTitle d ++ " " ++ sideTitle s ++ " on the " ++ partyName p

/-- The fixed enumeration order of the four direction-specific candidates
(the `cost_columns` tuple): Yes-D, No-R, Yes-R, No-D. -/
def costColumns (_ : Dir) : List (Side × Party) :=
  [(Side.yes, Party.D), (Side.no, Party.R), (Side.yes, Party.R),
   (Side.no, Party.D)]

/-- Look up the stored profit column for a (direction, side, party)
combination. -/
def profitOf (r : ProfitRow) : Dir → Side × Party → Option ℚ
  | Dir.buy, (Side.yes, Party.D) => r.profit_bestBuyYesCostD
  | Dir.buy, (Side.no, Party.R) => r.profit_bestBuyNoCostR
  | Dir.buy, (Side.yes, Party.R) => r.profit_bestBuyYesCostR
  | Dir.buy, (Side.no, Party.D) => r.profit_bestBuyNoCostD
  | Dir.sell, (Side.yes, Party.D) => r.profit_bestSellYesCostD
  | Dir.sell, (Side.no, Party.R) => r.profit_bestSellNoCostR
  | Dir.sell, (Side.yes, Party.R) => r.profit_bestSellYesCostR
  | Dir.sell, (Side.no, Party.D) => r.profit_bestSellNoCostD

/-- Look up the underlying price column for a (direction, side, party)
combination. -/
def priceOf (m : JoinedRace) : Dir → Side × Party → Option ℚ
  | Dir.buy, (Side.yes, Party.D) => m.bestBuyYesCostD
  | Dir.buy, (Side.no, Party.R) => m.bestBuyNoCostR
  | Dir.buy, (Side.yes, Party.R) => m.bestBuyYesCostR
  | Dir.buy, (Side.no, Party.D) => m.bestBuyNoCostD
  | Dir.sell, (Side.yes, Party.D) => m.bestSellYesCostD
  | Dir.sell, (Side.no, Party.R) => m.bestSellNoCostR
  | Dir.sell, (Side.yes, Party.R) => m.bestSellYesCostR
  | Dir.sell, (Side.no, Party.D) => m.bestSellNoCostD

/-- The one row of the transposed frame belonging to one joined race: the
four direction-specific candidates paired with their (nullable) profits, in
the fixed `cost_columns` order. -/
def candidates (r : ProfitRow) (d : Dir) : List ((Side × Party) × Option ℚ) :=
  (costColumns d).map fun sp => (sp, profitOf r d sp)

/-- Combined `Series.idxmax()` / `Series.max()` over one candidate column:
skip null entries; return the first label attaining the maximum together
with the maximum, or `none` when every entry is null (the case in which
`idxmax()` yields NaN and the subsequent `re.search` on it raises a
`TypeError`, aborting the run). -/
def seriesIdxmaxMax {α : Type} : List (α × Option ℚ) → Option (α × ℚ)
  | [] => none
  | (_, none) :: rest => seriesIdxmaxMax rest
  | (a, some p) :: rest =>
    match seriesIdxmaxMax rest with
    | none => some (a, p)
    | some (b, q) => if p < q then some (b, q) else some (a, p)

/-- A row of the output of `add_action_columns`: the profit row plus the
`actionRec`, `actionProfit` and `actionSide` columns. -/
structure ActionRow extends ProfitRow where
  actionRec : String
  actionProfit : ℚ
  actionSide : String
deriving DecidableEq

/-- The per-row work of `add_action_columns`: `idxmax`/`max` over the four
direction-specific profit columns, the recommendation label recovered from
the winning column name, and the direction stored in `actionSide`.
`none` models the `TypeError` raised when all four profits are NaN. -/
def rowAction (d : Dir) (r : ProfitRow) : Option ActionRow :=
  match seriesIdxmaxMax (candidates r d) with
  | none => none
  | some (sp, p) =>
    some { r with
           actionRec := actionLabel d sp.1 sp.2
           actionProfit := p
           actionSide := dirStr d }

/-- `add_action_columns` over the whole frame: every row must produce an
action; a single all-null candidate row aborts the run (`none`). -/
def add_action_columns (rows : List ProfitRow) (d : Dir) :
    Option (List ActionRow) :=
  rows.mapM (rowAction d)

/-! ### The Opportunity Filter/Ranker and final rounding
(`create_fte_and_pi_comparison`) -/

/-- `_MIN_PROFIT_PER_SHARE`. -/
def minProfitPerShare : ℚ := 5 / 100

/-- Insert into a sorted list: place `x` before the first element `y` with
`le x y`. -/
def insertLe {α : Type} (le : α → α → Bool) (x : α) : List α → List α
  | [] => [x]
  | y :: ys => if le x y then x :: y :: ys else y :: insertLe le x ys

/-- Insertion sort.  `sort_values` is modelled as a stable sort: pandas'
default quicksort is deterministic but not documented stable; the claims
settled here either do not depend on stability or are assessed under the
specification's stated stability assumption. -/
def sortByLe {α : Type} (le : α → α → Bool) : List α → List α
  | [] => []
  | x :: xs => insertLe le x (sortByLe le xs)

/-- Lexicographic comparison of strings by character code point, the order
Python and pandas use when sorting a string column ascending. -/
def lexLe : List Char → List Char → Bool
  | [], _ => true
  | _ :: _, [] => false
  | c :: cs, d :: ds =>
    if c.toNat < d.toNat then true
    else if d.toNat < c.toNat then false
    else lexLe cs ds

/-- Comparator of `sort_values('actionSide')` (ascending string order). -/
def sideLe (a b : ActionRow) : Bool :=
  lexLe a.actionSide.data b.actionSide.data

/-- Comparator of `sort_values('actionProfit', ascending=False)`. -/
def profitGe (a b : ActionRow) : Bool :=
  decide (b.actionProfit ≤ a.actionProfit)

/-- Lines 112-113 of the source: keep rows with
`actionProfit >= _MIN_PROFIT_PER_SHARE` (the raw profit), then
`sort_values('actionSide')` followed by
`sort_values('actionProfit', ascending=False)`. -/
def filterRank (rows : List ActionRow) : List ActionRow :=
  sortByLe profitGe (sortByLe sideLe
    (rows.filter fun r => decide (minProfitPerShare ≤ r.actionProfit)))

/-- pandas `.round(2)` on a value, modelled as exact arithmetic rounding of
`100 * q` to an integer.  (On binary floats numpy rounds halves to even; no
claim settled here depends on the behaviour at exact halves.) -/
def round2 (q : ℚ) : ℚ :=
  (round (q * 100) : ℚ) / 100

/-- Lines 115-117 of the source: round `fteD`, `fteR` and `actionProfit` to
two decimals for display. -/
def roundRow (r : ActionRow) : ActionRow :=
  { r with
    fteD := round2 r.fteD
    fteR := round2 r.fteR
    actionProfit := round2 r.actionProfit }

/-- The filter, the two-stage sort and the display rounding combined: the
tail of `create_fte_and_pi_comparison`. -/
def finalizeRows (rows : List ActionRow) : List ActionRow :=
  (filterRank rows).map roundRow

/-- `create_fte_and_pi_comparison` on already-fetched inputs: build the
contract table, join per chamber and concatenate, attach profits, run the
Action Selector for the buy and the sell direction, concatenate, filter,
rank and round.  `none` models a run aborted by the selector's `TypeError`
on an all-null candidate row. -/
def create_fte_and_pi_comparison (ms : List Market)
    (fteSen fteGov : List FteRawRow) : Option (List ActionRow) :=
  let piData := getPiMarkets ms
  let merged := mergeFteAndPi piData Chamber.senate (getFteData fteSen) ++
    mergeFteAndPi piData Chamber.governor (getFteData fteGov)
  let profits := merged.map add_profit_columns
  match add_action_columns profits Dir.buy,
      add_action_columns profits Dir.sell with
  | some buys, some sells => some (finalizeRows (buys ++ sells))
  | _, _ => none

/-! ### Claim-side definitions (written from the specification's wording,
for comparison with the source-derived definitions above) -/

/-- Modelled from the spec's profit table (section 4.3): the signed profit
per share for each (direction, side, party) combination, with a missing
price making the profit undefined. -/
def specProfit (m : JoinedRace) : Dir → Side × Party → Option ℚ
  | Dir.buy, (Side.yes, Party.D) => m.bestBuyYesCostD.map fun p => m.fteD - p
  | Dir.buy, (Side.no, Party.R) => m.bestBuyNoCostR.map fun p => m.fteD - p
  | Dir.buy, (Side.yes, Party.R) => m.bestBuyYesCostR.map fun p => m.fteR - p
  | Dir.buy, (Side.no, Party.D) => m.bestBuyNoCostD.map fun p => m.fteR - p
  | Dir.sell, (Side.yes, Party.D) =>
    m.bestSellYesCostD.map fun p => p - m.fteD
  | Dir.sell, (Side.no, Party.R) => m.bestSellNoCostR.map fun p => p - m.fteD
  | Dir.sell, (Side.yes, Party.R) =>
    m.bestSellYesCostR.map fun p => p - m.fteR
  | Dir.sell, (Side.no, Party.D) => m.bestSellNoCostD.map fun p => p - m.fteR

/-- Modelled from the claim's wording (C4): an Action Selector that rounds
every profit to two decimals before the max-selection. -/
def rowActionRounded (d : Dir) (r : ProfitRow) : Option ActionRow :=
  match seriesIdxmaxMax ((candidates r d).map fun c =>
      (c.1, c.2.map round2)) with
  | none => none
  | some (sp, p) =>
    some { r with
           actionRec := actionLabel d sp.1 sp.2
           actionProfit := p
           actionSide := dirStr d }

/-- Modelled from the claim's wording (C4): a Filter whose threshold
comparison operates on two-decimal-rounded profits. -/
def filterRankRounded (rows : List ActionRow) : List ActionRow :=
  sortByLe profitGe (sortByLe sideLe
    (rows.filter fun r => decide (minProfitPerShare ≤ round2 r.actionProfit)))

/-! ### Concrete sample data for witnesses and counterexamples -/

/-- A joined race with the spec's running example prices: D buy-yes 0.40,
R buy-no 0.55, forecasts 0.60/0.40; every other price absent. -/
def jr2 : JoinedRace :=
  { mshortName := "Which party will win the OH Senate race"
    murl := "https://www.predictit.org/markets/detail/1"
    seat := "OH-SEN"
    bestBuyYesCostD := some (40 / 100)
    bestBuyNoCostD := none
    bestSellYesCostD := none
    bestSellNoCostD := none
    bestBuyYesCostR := none
    bestBuyNoCostR := some (55 / 100)
    bestSellYesCostR := none
    bestSellNoCostR := none
    fteD := 60 / 100
    fteR := 40 / 100 }

/-- The action row the selector produces on `jr2` in the buy direction. -/
def ar2 : ActionRow :=
  { add_profit_columns jr2 with
    actionRec := "Buy Yes on the Democrat"
    actionProfit := 1 / 5
    actionSide := "buy" }

/-- A joined race whose four buy-direction prices are all absent. -/
def jr3 : JoinedRace :=
  { jr2 with
    bestBuyYesCostD := none
    bestBuyNoCostR := none
    bestSellYesCostD := some (70 / 100)
    bestSellNoCostD := some (45 / 100)
    bestSellYesCostR := some (50 / 100)
    bestSellNoCostR := some (55 / 100) }

/-- A market whose D and R contracts both quote no buy price at all. -/
def ms3 : List Market :=
  [{ shortName := "Which party will win the OH Senate race"
     url := "https://www.predictit.org/markets/detail/1"
     contracts :=
       [{ name := "Democratic"
          bestBuyYesCost := none
          bestBuyNoCost := none
          bestSellYesCost := some (70 / 100)
          bestSellNoCost := some (45 / 100) },
        { name := "Republican"
          bestBuyYesCost := none
          bestBuyNoCost := none
          bestSellYesCost := some (50 / 100)
          bestSellNoCost := some (55 / 100) }] }]

/-- One senate forecast row for the OH race. -/
def fs3 : List FteRawRow :=
  [{ district := "OH-S3"
     expression := "_classic"
     winner_Dparty := 60 / 100
     winner_Rparty := 40 / 100 }]

/-- A joined race whose buy profits are 0.049 (Yes-D) and 0.051 (No-R):
raw selection picks No-R, two-decimal-rounded selection would tie at 0.05
and pick Yes-D first. -/
def jrB : JoinedRace :=
  { jr2 with
    bestBuyYesCostD := some (451 / 1000)
    bestBuyNoCostR := some (449 / 1000)
    bestBuyYesCostR := some (90 / 100)
    bestBuyNoCostD := some (90 / 100)
    fteD := 50 / 100
    fteR := 50 / 100 }

/-- An action row whose raw profit 0.049 is below the threshold while its
two-decimal rounding 0.05 meets it. -/
def arC : ActionRow :=
  { add_profit_columns jr2 with
    actionRec := "Buy Yes on the Democrat"
    actionProfit := 49 / 1000
    actionSide := "buy" }

/-- A market on which the best buy action and the best sell action have the
same profit 0.10, to exercise the tie between directions. -/
def ms6 : List Market :=
  [{ shortName := "Which party will win the OH Senate race"
     url := "https://www.predictit.org/markets/detail/6"
     contracts :=
       [{ name := "Democratic"
          bestBuyYesCost := some (40 / 100)
          bestBuyNoCost := some (55 / 100)
          bestSellYesCost := some (60 / 100)
          bestSellNoCost := some (50 / 100) },
        { name := "Republican"
          bestBuyYesCost := some (47 / 100)
          bestBuyNoCost := some (48 / 100)
          bestSellYesCost := some (51 / 100)
          bestSellNoCost := some (52 / 100) }] }]

/-- A forecast giving both parties probability 0.5 for the OH race. -/
def fs6 : List FteRawRow :=
  [{ district := "OH-S3"
     expression := "_classic"
     winner_Dparty := 50 / 100
     winner_Rparty := 50 / 100 }]

/-- A market with full quotes on both contracts, for the end-to-end
pipeline witness. -/
def ms5 : List Market :=
  [{ shortName := "Which party will win the OH Senate race"
     url := "https://www.predictit.org/markets/detail/5"
     contracts :=
       [{ name := "Democratic"
          bestBuyYesCost := some (40 / 100)
          bestBuyNoCost := some (55 / 100)
          bestSellYesCost := some (62 / 100)
          bestSellNoCost := some (45 / 100) },
        { name := "Republican"
          bestBuyYesCost := some (55 / 100)
          bestBuyNoCost := some (42 / 100)
          bestSellYesCost := some (50 / 100)
          bestSellNoCost := some (58 / 100) }] }]

/-- A forecast list with a duplicate district and a non-selected variant. -/
def l9 : List FteRawRow :=
  [{ district := "OH-S3", expression := "_classic"
     winner_Dparty := 60 / 100, winner_Rparty := 40 / 100 },
   { district := "OH-S3", expression := "_classic"
     winner_Dparty := 55 / 100, winner_Rparty := 45 / 100 },
   { district := "FL-G1", expression := "_deluxe"
     winner_Dparty := 50 / 100, winner_Rparty := 50 / 100 },
   { district := "FL-G1", expression := "_classic"
     winner_Dparty := 30 / 100, winner_Rparty := 70 / 100 }]

/-! ### Properties of first-occurrence de-duplication -/

theorem dedupFirstByAux_subset {α β : Type} (key : α → β) [DecidableEq β]
    (l : List α) (seen : List β) (x : α)
    (h : x ∈ dedupFirstByAux key l seen) : x ∈ l := by
  induction l generalizing seen with
  | nil => simp [dedupFirstByAux] at h
  | cons z zs ih =>
    simp only [dedupFirstByAux] at h
    split at h
    · exact List.mem_cons_of_mem _ (ih _ h)
    · rcases List.mem_cons.mp h with h | h
      · exact h ▸ List.mem_cons_self _ _
      · exact List.mem_cons_of_mem _ (ih _ h)

theorem dedupFirstByAux_first {α β : Type} (key : α → β) [DecidableEq β]
    (l : List α) (seen : List β) (x : α)
    (h : x ∈ dedupFirstByAux key l seen) :
    key x ∉ seen ∧ l.find? (fun y => decide (key y = key x)) = some x := by
  induction l generalizing seen with
  | nil => simp [dedupFirstByAux] at h
  | cons z zs ih =>
    simp only [dedupFirstByAux] at h
    split at h
    · rename_i hz
      obtain ⟨hns, hfind⟩ := ih _ h
      refine ⟨hns, ?_⟩
      have hne : key z ≠ key x := fun he => hns (he ▸ hz)
      rw [List.find?_cons_of_neg _ (by simpa using hne)]
      exact hfind
    · rename_i hz
      rcases List.mem_cons.mp h with h | h
      · subst h
        exact ⟨hz, List.find?_cons_of_pos _ (by simp)⟩
      · obtain ⟨hns, hfind⟩ := ih _ h
        have hne : key z ≠ key x := by
          intro he
          exact hns (he ▸ List.mem_cons_self _ _)
        refine ⟨fun hc => hns (List.mem_cons_of_mem _ hc), ?_⟩
        rw [List.find?_cons_of_neg _ (by simpa using hne)]
        exact hfind

theorem dedupFirstByAux_nodup {α β : Type} (key : α → β) [DecidableEq β]
    (l : List α) (seen : List β) :
    ((dedupFirstByAux key l seen).map key).Nodup := by
  induction l generalizing seen with
  | nil => simp [dedupFirstByAux]
  | cons z zs ih =>
    simp only [dedupFirstByAux]
    split
    · exact ih _
    · refine List.Nodup.cons ?_ (ih _)
      intro hc
      rcases List.mem_map.mp hc with ⟨y, hy, hky⟩
      have := (dedupFirstByAux_first key zs _ y hy).1
      exact this (hky ▸ List.mem_cons_self _ _)

theorem dedupFirstByAux_complete {α β : Type} (key : α → β) [DecidableEq β]
    (l : List α) (seen : List β) (x : α)
    (hx : x ∈ l) (hs : key x ∉ seen) :
    ∃ y ∈ dedupFirstByAux key l seen, key y = key x := by
  induction l generalizing seen with
  | nil => simp at hx
  | cons z zs ih =>
    simp only [dedupFirstByAux]
    split
    · rename_i hz
      rcases List.mem_cons.mp hx with h | h
      · exact absurd (h ▸ hs) (by simp [hz])
      · exact ih _ h hs
    · rename_i hz
      by_cases he : key x = key z
      · exact ⟨z, List.mem_cons_self _ _, he.symm⟩
      · rcases List.mem_cons.mp hx with h | h
        · exact absurd (congrArg key h) he
        · have hns : key x ∉ key z :: seen := by
            simp only [List.mem_cons]
            rintro (hc | hc)
            · exact he hc
            · exact hs hc
          obtain ⟨y, hy, hky⟩ := ih (key z :: seen) h hns
          exact ⟨y, List.mem_cons_of_mem _ hy, hky⟩

/-! ### Properties of the idxmax/max selection -/

theorem seriesIdxmaxMax_eq_none {α : Type} (l : List (α × Option ℚ))
    (h : seriesIdxmaxMax l = none) : ∀ x ∈ l, x.2 = none := by
  induction l with
  | nil => simp
  | cons z zs ih =>
    intro x hx
    match z, h with
    | (a, none), h =>
      rcases List.mem_cons.mp hx with hx | hx
      · simp [hx]
      · exact ih (by simpa [seriesIdxmaxMax] using h) x hx
    | (a, some p), h =>
      exfalso
      simp only [seriesIdxmaxMax] at h
      rcases hm : seriesIdxmaxMax zs with _ | ⟨b, q⟩ <;> simp [hm] at h
      split at h <;> simp at h

theorem seriesIdxmaxMax_spec {α : Type} (l : List (α × Option ℚ)) (a : α)
    (p : ℚ) (h : seriesIdxmaxMax l = some (a, p)) :
    (∀ x ∈ l, ∀ q, x.2 = some q → q ≤ p) ∧
      l.find? (fun x => decide (x.2 = some p)) = some (a, some p) := by
  induction l generalizing a p with
  | nil => simp [seriesIdxmaxMax] at h
  | cons z zs ih =>
    match z with
    | (b, none) =>
      simp only [seriesIdxmaxMax] at h
      obtain ⟨hbound, hfind⟩ := ih a p h
      refine ⟨?_, ?_⟩
      · intro x hx q hq
        rcases List.mem_cons.mp hx with hx | hx
        · simp [hx] at hq
        · exact hbound x hx q hq
      · rw [List.find?_cons_of_neg _ (by simp)]
        exact hfind
    | (b, some pb) =>
      simp only [seriesIdxmaxMax] at h
      split at h
      · rename_i hm
        simp only [Option.some.injEq, Prod.mk.injEq] at h
        obtain ⟨hab, hpb⟩ := h
        rw [← hab, ← hpb]
        refine ⟨?_, ?_⟩
        · intro x hx r hr
          rcases List.mem_cons.mp hx with hx | hx
          · simp [hx] at hr; simp [hr]
          · exact absurd hr (by simp [seriesIdxmaxMax_eq_none zs hm x hx])
        · exact List.find?_cons_of_pos _ (by simp)
      · rename_i c q hm
        split at h
        · rename_i hlt
          simp only [Option.some.injEq, Prod.mk.injEq] at h
          obtain ⟨hac, hpq⟩ := h
          rw [hac, hpq] at hm
          rw [hpq] at hlt
          obtain ⟨hbound, hfind⟩ := ih a p hm
          refine ⟨?_, ?_⟩
          · intro x hx r hr
            rcases List.mem_cons.mp hx with hx | hx
            · simp [hx] at hr
              subst hr
              exact le_of_lt hlt
            · exact hbound x hx r hr
          · rw [List.find?_cons_of_neg _ (by simp; exact ne_of_lt hlt)]
            exact hfind
        · rename_i hlt
          simp only [Option.some.injEq, Prod.mk.injEq] at h
          obtain ⟨hab, hpb⟩ := h
          rw [hpb] at hlt
          rw [← hab, ← hpb]
          obtain ⟨hbound, _⟩ := ih c q hm
          refine ⟨?_, ?_⟩
          · intro x hx r hr
            rcases List.mem_cons.mp hx with hx | hx
            · simp [hx] at hr; simp [hr]
            · exact le_trans (hbound x hx r hr)
                (le_of_not_lt (hpb ▸ hlt))
          · exact List.find?_cons_of_pos _ (by simp)

/-! ### Properties of the modelled stable sort -/

theorem mem_insertLe {α : Type} (le : α → α → Bool) (x a : α) (l : List α) :
    a ∈ insertLe le x l ↔ a = x ∨ a ∈ l := by
  induction l with
  | nil => simp [insertLe]
  | cons y ys ih =>
    simp only [insertLe]
    split
    · simp [List.mem_cons]
    · simp only [List.mem_cons, ih]
      tauto

theorem mem_sortByLe {α : Type} (le : α → α → Bool) (a : α) (l : List α) :
    a ∈ sortByLe le l ↔ a ∈ l := by
  induction l with
  | nil => simp [sortByLe]
  | cons x xs ih =>
    simp only [sortByLe, mem_insertLe, ih, List.mem_cons]

theorem insertLe_sorted {α : Type} (le : α → α → Bool)
    (htot : ∀ a b, le a b = false → le b a = true)
    (htrans : ∀ a b c, le a b = true → le b c = true → le a c = true)
    (x : α) (l : List α) (hl : l.Pairwise fun a b => le a b = true) :
    (insertLe le x l).Pairwise fun a b => le a b = true := by
  induction l with
  | nil => simp [insertLe]
  | cons y ys ih =>
    simp only [insertLe]
    rcases List.pairwise_cons.mp hl with ⟨hy, hys⟩
    split
    · rename_i hxy
      refine List.Pairwise.cons ?_ hl
      intro z hz
      rcases List.mem_cons.mp hz with hz | hz
      · exact hz ▸ hxy
      · exact htrans x y z hxy (hy z hz)
    · rename_i hxy
      refine List.Pairwise.cons ?_ (ih hys)
      intro z hz
      rcases (mem_insertLe le x z ys).mp hz with hz | hz
      · exact hz ▸ htot x y (Bool.eq_false_iff.mpr hxy ▸ rfl)
      · exact hy z hz

theorem sortByLe_sorted {α : Type} (le : α → α → Bool)
    (htot : ∀ a b, le a b = false → le b a = true)
    (htrans : ∀ a b c, le a b = true → le b c = true → le a c = true)
    (l : List α) :
    (sortByLe le l).Pairwise fun a b => le a b = true := by
  induction l with
  | nil => simp [sortByLe]
  | cons x xs ih => exact insertLe_sorted le htot htrans x _ ih

theorem insertLe_pairwise {α : Type} (le : α → α → Bool) (R : α → α → Prop)
    (hcomp : ∀ a b, le a b = false → R b a) (x : α) (l : List α)
    (hx : ∀ z ∈ l, R x z) (hl : l.Pairwise R) :
    (insertLe le x l).Pairwise R := by
  induction l with
  | nil => simp [insertLe]
  | cons y ys ih =>
    simp only [insertLe]
    rcases List.pairwise_cons.mp hl with ⟨hy, hys⟩
    split
    · exact List.Pairwise.cons hx hl
    · rename_i hxy
      refine List.Pairwise.cons ?_
        (ih (fun z hz => hx z (List.mem_cons_of_mem _ hz)) hys)
      intro z hz
      rcases (mem_insertLe le x z ys).mp hz with hz | hz
      · exact hz ▸ hcomp x y (Bool.eq_false_iff.mpr hxy ▸ rfl)
      · exact hy z hz

/-- A stable sort preserves any pairwise relation that holds automatically
between elements the sort actually reorders (elements with strictly
misordered keys). -/
theorem sortByLe_pairwise {α : Type} (le : α → α → Bool) (R : α → α → Prop)
    (hcomp : ∀ a b, le a b = false → R b a) (l : List α)
    (hl : l.Pairwise R) : (sortByLe le l).Pairwise R := by
  induction l with
  | nil => simp [sortByLe]
  | cons x xs ih =>
    rcases List.pairwise_cons.mp hl with ⟨hx, hxs⟩
    exact insertLe_pairwise le R hcomp x _
      (fun z hz => hx z ((mem_sortByLe le z xs).mp hz)) (ih hxs)

/-! ### Properties of two-decimal rounding -/

theorem round2_mono {a b : ℚ} (h : a ≤ b) : round2 a ≤ round2 b := by
  unfold round2
  have hr : round (a * 100) ≤ round (b * 100) := by
    rw [round_eq, round_eq]
    exact Int.floor_le_floor (by linarith)
  have hc : ((round (a * 100) : ℤ) : ℚ) ≤ ((round (b * 100) : ℤ) : ℚ) :=
    Int.cast_le.mpr hr
  linarith

theorem round2_minProfit : round2 minProfitPerShare = minProfitPerShare := by
  norm_num [round2, minProfitPerShare]

/-! ### Claim theorems -/

/-- C1: for every JoinedRace row, the Profit Calculator produces exactly the
8 signed profit values of the spec's table — profit(buy,yes,D) =
fteD − buyYesPriceD, profit(buy,no,R) = fteD − buyNoPriceR, profit(buy,yes,R)
= fteR − buyYesPriceR, profit(buy,no,D) = fteR − buyNoPriceD,
profit(sell,yes,D) = sellYesPriceD − fteD, profit(sell,no,R) =
sellNoPriceR − fteD, profit(sell,yes,R) = sellYesPriceR − fteR,
profit(sell,no,D) = sellNoPriceD − fteR — and a null price makes exactly
that one profit undefined. -/
theorem c1_profit_formulas (m : JoinedRace) (d : Dir) (sp : Side × Party) :
    profitOf (add_profit_columns m) d sp = specProfit m d sp ∧
      (profitOf (add_profit_columns m) d sp = none ↔ priceOf m d sp = none) := by
  rcases sp with ⟨s, pa⟩
  rcases d <;> rcases s <;> rcases pa <;>
    simp [profitOf, specProfit, priceOf, add_profit_columns]

/-- C2: whenever the Action Selector returns on a (row, direction), the
returned candidate is one of the direction's 4 candidates, its profit is the
true maximum of the 4 defined profits, the chosen candidate is the first one
in the fixed order Yes-D, No-R, Yes-R, No-D attaining that maximum, and the
attached label is "Direction Side on the PartyFullName". -/
theorem c2_action_selector (r : ProfitRow) (d : Dir) (ar : ActionRow)
    (h : rowAction d r = some ar) :
    (∃ sp ∈ costColumns d,
        profitOf r d sp = some ar.actionProfit ∧
        (candidates r d).find?
            (fun c => decide (c.2 = some ar.actionProfit)) =
          some (sp, some ar.actionProfit) ∧
        ar.actionRec = actionLabel d sp.1 sp.2) ∧
      (∀ sp ∈ costColumns d, ∀ q, profitOf r d sp = some q →
        q ≤ ar.actionProfit) ∧
      ar.actionSide = dirStr d := by
  unfold rowAction at h
  split at h
  · exact absurd h (by simp)
  · rename_i sp p hm
    simp only [Option.some.injEq] at h
    obtain ⟨hbound, hfind⟩ := seriesIdxmaxMax_spec (candidates r d) sp p hm
    have hmem : (sp, some p) ∈ candidates r d :=
      List.mem_of_find?_eq_some hfind
    have hcand : sp ∈ costColumns d ∧ profitOf r d sp = some p := by
      rcases List.mem_map.mp hmem with ⟨sp', hsp', heq⟩
      rcases Prod.mk.injEq .. ▸ heq with ⟨h1, h2⟩
      exact ⟨h1 ▸ hsp', h1 ▸ h2⟩
    have hprofit : ar.actionProfit = p := by rw [← h]
    have hrec : ar.actionRec = actionLabel d sp.1 sp.2 := by rw [← h]
    have hside : ar.actionSide = dirStr d := by rw [← h]
    refine ⟨⟨sp, hcand.1, ?_, ?_, hrec⟩, ?_, hside⟩
    · rw [hprofit]
      exact hcand.2
    · rw [hprofit]
      exact hfind
    · intro sp' hsp' q hq
      rw [hprofit]
      exact hbound (sp', profitOf r d sp')
        (List.mem_map.mpr ⟨sp', hsp', rfl⟩) q hq

/-- Witness for C2: on the spec's running example the selector returns, with
side "buy", label "Buy Yes on the Democrat" and a profit bounding the
Yes-D candidate's 0.20. -/
theorem c2_action_selector_witness :
    ar2.actionSide = dirStr Dir.buy ∧ (1 : ℚ) / 5 ≤ ar2.actionProfit :=
  ⟨(c2_action_selector (add_profit_columns jr2) Dir.buy ar2
      (by decide)).2.2,
    (c2_action_selector (add_profit_columns jr2) Dir.buy ar2
      (by decide)).2.1 (Side.yes, Party.D) (by decide) (1 / 5) (by decide)⟩

/-- C3 (code bug): when all four candidate prices of a (row, direction) are
missing, the selector has no result — `idxmax()` on the all-NaN column
yields NaN and `re.search` applied to it raises a `TypeError` — and the
whole run aborts, contrary to the never-fatal policy.  `none` is the
modelled abort. -/
theorem c3_all_missing_aborts :
    rowAction Dir.buy (add_profit_columns jr3) = none ∧
      create_fte_and_pi_comparison ms3 fs3 [] = none := by
  exact ⟨rfl, rfl⟩

/-- C9: the forecast preparation keeps exactly the rows whose variant tag is
the configured `_classic`, de-duplicated to one row per district; the row
kept for a district is the first-encountered one, and every district of the
filtered input survives. -/
theorem c9_forecast_prep (l : List FteRawRow) (r : FteRawRow)
    (h : r ∈ fteDeduped l) :
    r.expression = forecastExpression ∧
      (fteFiltered l).find? (fun y => decide (y.district = r.district)) =
        some r ∧
      ((fteDeduped l).map (fun x => x.district)).Nodup ∧
      ∀ x ∈ fteFiltered l, ∃ y ∈ fteDeduped l, y.district = x.district := by
  have h' : r ∈ dedupFirstByAux (fun x => x.district) (fteFiltered l) [] := h
  have hsub := dedupFirstByAux_subset (fun x : FteRawRow => x.district)
    (fteFiltered l) [] r h'
  have hfirst := dedupFirstByAux_first (fun x : FteRawRow => x.district)
    (fteFiltered l) [] r h'
  refine ⟨?_, hfirst.2, ?_, ?_⟩
  · have := (List.mem_filter.mp hsub).2
    simpa [forecastExpression] using this
  · exact dedupFirstByAux_nodup (fun x : FteRawRow => x.district)
      (fteFiltered l) []
  · intro x hx
    exact dedupFirstByAux_complete (fun x : FteRawRow => x.district)
      (fteFiltered l) [] x hx (by simp)

/-- One forecast row of the sample list `l9`. -/
def fr9 : FteRawRow :=
  { district := "OH-S3", expression := "_classic"
    winner_Dparty := 60 / 100, winner_Rparty := 40 / 100 }

/-- Witness for C9: on `l9` — which contains a duplicate district and a
non-selected variant — the kept OH row is the first-encountered one. -/
theorem c9_forecast_prep_witness :
    fr9.expression = forecastExpression ∧
      (fteFiltered l9).find? (fun y => decide (y.district = fr9.district)) =
        some fr9 :=
  ⟨(c9_forecast_prep l9 fr9 (by decide)).1,
    (c9_forecast_prep l9 fr9 (by decide)).2.1⟩

/-- C10: the contract table fed to the joiner has no two identical rows —
`drop_duplicates()` collapses exact duplicates of the raw payload rows —
and collapsing loses no distinct row. -/
theorem c10_contract_dedup (ms : List Market) :
    (getPiMarkets ms).Nodup ∧
      ∀ r : PiRow, r ∈ getPiMarkets ms ↔ r ∈ rawContractRows ms := by
  constructor
  · have h := dedupFirstByAux_nodup (id : PiRow → PiRow)
      (rawContractRows ms) []
    simpa using h
  · intro r
    constructor
    · exact dedupFirstByAux_subset id (rawContractRows ms) [] r
    · intro hr
      obtain ⟨y, hy, hky⟩ := dedupFirstByAux_complete id
        (rawContractRows ms) [] r hr (by simp)
      have : y = r := hky
      exact this ▸ hy

/-! ### Totality and transitivity of the two sort comparators -/

theorem lexLe_total (a : List Char) :
    ∀ b, lexLe a b = false → lexLe b a = true := by
  induction a with
  | nil => intro b h; simp [lexLe] at h
  | cons c cs ih =>
    intro b h
    cases b with
    | nil => simp [lexLe]
    | cons d ds =>
      simp only [lexLe] at h ⊢
      by_cases h1 : c.toNat < d.toNat
      · simp [h1] at h
      · by_cases h2 : d.toNat < c.toNat
        · simp [h2]
        · simp only [if_neg h1, if_neg h2] at h
          simp only [if_neg h2, if_neg h1]
          exact ih ds h

theorem lexLe_trans (a : List Char) :
    ∀ b c, lexLe a b = true → lexLe b c = true → lexLe a c = true := by
  induction a with
  | nil => intro b c _ _; simp [lexLe]
  | cons x xs ih =>
    intro b c hab hbc
    cases b with
    | nil => simp [lexLe] at hab
    | cons y ys =>
      cases c with
      | nil => simp [lexLe] at hbc
      | cons z zs =>
        simp only [lexLe] at hab hbc ⊢
        by_cases h1 : x.toNat < y.toNat
        · by_cases h2 : y.toNat < z.toNat
          · simp [Nat.lt_trans h1 h2]
          · by_cases h2' : z.toNat < y.toNat
            · rw [if_neg h2, if_pos h2'] at hbc
              exact absurd hbc (by simp)
            · have h3 : x.toNat < z.toNat := by omega
              simp [h3]
        · by_cases h1' : y.toNat < x.toNat
          · rw [if_neg h1, if_pos h1'] at hab
            exact absurd hab (by simp)
          · rw [if_neg h1, if_neg h1'] at hab
            by_cases h2 : y.toNat < z.toNat
            · have h3 : x.toNat < z.toNat := by omega
              simp [h3]
            · by_cases h2' : z.toNat < y.toNat
              · rw [if_neg h2, if_pos h2'] at hbc
                exact absurd hbc (by simp)
              · rw [if_neg h2, if_neg h2'] at hbc
                have h3 : ¬x.toNat < z.toNat := by omega
                have h3' : ¬z.toNat < x.toNat := by omega
                rw [if_neg h3, if_neg h3']
                exact ih ys zs hab hbc

theorem sideLe_total (a b : ActionRow) (h : sideLe a b = false) :
    sideLe b a = true :=
  lexLe_total _ _ h

theorem sideLe_trans (a b c : ActionRow) (h1 : sideLe a b = true)
    (h2 : sideLe b c = true) : sideLe a c = true :=
  lexLe_trans _ _ _ h1 h2

theorem profitGe_total (a b : ActionRow) (h : profitGe a b = false) :
    profitGe b a = true := by
  simp only [profitGe, decide_eq_false_iff_not, not_le] at h
  simp only [profitGe, decide_eq_true_eq]
  exact le_of_lt h

theorem profitGe_trans (a b c : ActionRow) (h1 : profitGe a b = true)
    (h2 : profitGe b c = true) : profitGe a c = true := by
  simp only [profitGe, decide_eq_true_eq] at h1 h2 ⊢
  exact le_trans h2 h1

/-! ### Membership in the filtered, ranked output -/

theorem mem_filterRank (l : List ActionRow) (r : ActionRow) :
    r ∈ filterRank l ↔ r ∈ l ∧ minProfitPerShare ≤ r.actionProfit := by
  unfold filterRank
  rw [mem_sortByLe, mem_sortByLe, List.mem_filter]
  simp

/-- C4 (counterexample): the code compares raw profits, not two-decimal
rounded ones.  On `jrB` the raw selection picks No-R (0.051 over 0.049)
while the claim's rounded selection would tie at 0.05 and pick Yes-D; and a
row with raw profit 0.049 is dropped by the code's threshold filter while
the claim's rounded filter (0.05 ≥ 0.05) would keep it. -/
theorem c4_rounding_counterexample :
    (rowAction Dir.buy (add_profit_columns jrB)).map
        (fun a => a.actionRec) = some "Buy No on the Republican" ∧
      (rowActionRounded Dir.buy (add_profit_columns jrB)).map
        (fun a => a.actionRec) = some "Buy Yes on the Democrat" ∧
      filterRank [arC] = [] ∧ filterRankRounded [arC] = [arC] := by
  refine ⟨by decide, by decide, by decide, by decide⟩

/-- C4 (amended): the max-selection and the threshold comparison operate on
raw profits; rounding to two decimals happens afterwards, only for display —
a row enters the ranked output iff its raw profit meets the threshold, and
every displayed profit is the rounding of such a raw profit. -/
theorem c4_rounding_after_comparison (l : List ActionRow) (r : ActionRow) :
    (r ∈ filterRank l ↔ r ∈ l ∧ minProfitPerShare ≤ r.actionProfit) ∧
      (r ∈ finalizeRows l →
        ∃ s ∈ l, minProfitPerShare ≤ s.actionProfit ∧
          r.actionProfit = round2 s.actionProfit ∧ r = roundRow s) := by
  refine ⟨mem_filterRank l r, ?_⟩
  intro hr
  unfold finalizeRows at hr
  rcases List.mem_map.mp hr with ⟨s, hs, hrs⟩
  rcases (mem_filterRank l s).mp hs with ⟨hsl, hsp⟩
  exact ⟨s, hsl, hsp, by rw [← hrs]; rfl, hrs.symm⟩

/-- Witness for C4's amended statement on a concrete profitable row. -/
theorem c4_rounding_after_comparison_witness :
    ar2 ∈ filterRank [ar2] ∧
      ∃ s ∈ [ar2], minProfitPerShare ≤ s.actionProfit ∧
        (roundRow ar2).actionProfit = round2 s.actionProfit ∧
        roundRow ar2 = roundRow s :=
  ⟨(c4_rounding_after_comparison [ar2] ar2).1.mpr (by decide),
    (c4_rounding_after_comparison [ar2] (roundRow ar2)).2 (by decide)⟩

/-- C5: every row of the final output satisfies `actionProfit ≥ 0.05` (its
displayed profit is the rounding of a raw profit meeting the threshold), and
every concatenated buy- or sell-direction selection whose profit is below
the threshold is absent from the ranked output. -/
theorem c5_threshold (ms : List Market) (fteSen fteGov : List FteRawRow)
    (out : List ActionRow)
    (h : create_fte_and_pi_comparison ms fteSen fteGov = some out) :
    (∀ r ∈ out, minProfitPerShare ≤ r.actionProfit) ∧
      ∃ acts, out = finalizeRows acts ∧
        ∀ r ∈ acts, r.actionProfit < minProfitPerShare →
          r ∉ filterRank acts := by
  simp only [create_fte_and_pi_comparison] at h
  split at h
  · rename_i buys sells hb hs
    simp only [Option.some.injEq] at h
    refine ⟨?_, buys ++ sells, h.symm, ?_⟩
    · intro r hr
      rw [← h] at hr
      unfold finalizeRows at hr
      rcases List.mem_map.mp hr with ⟨s, hs', hrs⟩
      rcases (mem_filterRank _ s).mp hs' with ⟨_, hsp⟩
      have : minProfitPerShare ≤ round2 s.actionProfit :=
        round2_minProfit ▸ round2_mono hsp
      rw [← hrs]
      exact this
    · intro r _ hlt hmem
      exact absurd ((mem_filterRank _ r).mp hmem).2 (not_le.mpr hlt)
  · exact absurd h (by simp)

/-- The empty-string action row used as a list-head default. -/
def dummyAction : ActionRow :=
  { add_profit_columns jr2 with
    actionRec := ""
    actionProfit := 0
    actionSide := "" }

/-- The output of the pipeline on the fully-quoted sample market. -/
def out5 : List ActionRow :=
  (create_fte_and_pi_comparison ms5 fs3 []).getD []

/-- Witness for C5: on the sample run the leading output row meets the
threshold. -/
theorem c5_threshold_witness :
    minProfitPerShare ≤ (out5.headD dummyAction).actionProfit :=
  (c5_threshold ms5 fs3 [] out5 rfl).1 (out5.headD dummyAction) (by decide)

/-- C6 (counterexample): on a market whose best buy action and best sell
action both have profit 0.10, the final sequence places the buy row before
the sell row — the ascending side sort groups "buy" first and the
descending profit sort preserves that order on the tie — so equal-profit
rows are not ordered sell-before-buy. -/
theorem c6_tie_counterexample :
    (create_fte_and_pi_comparison ms6 fs6 []).map
        (List.map fun r => (r.actionSide, r.actionProfit)) =
      some [("buy", 1 / 10), ("sell", 1 / 10)] := by
  decide

/-- C6 (amended): the ranked output is ordered by non-increasing
`actionProfit` (both before and after display rounding), and whenever two
rows have equal raw profit the row with the lexicographically smaller
`actionSide` — "buy" before "sell" — comes first. -/
theorem c6_sort_order (l : List ActionRow) :
    ((filterRank l).Pairwise fun a b => b.actionProfit ≤ a.actionProfit) ∧
      ((finalizeRows l).Pairwise fun a b =>
        b.actionProfit ≤ a.actionProfit) ∧
      ((filterRank l).Pairwise fun a b =>
        a.actionProfit = b.actionProfit → sideLe a b = true) := by
  have hsorted : (filterRank l).Pairwise fun a b => profitGe a b = true :=
    sortByLe_sorted profitGe profitGe_total profitGe_trans _
  have h1 : (filterRank l).Pairwise fun a b =>
      b.actionProfit ≤ a.actionProfit :=
    hsorted.imp fun h => by simpa [profitGe] using h
  refine ⟨h1, ?_, ?_⟩
  · unfold finalizeRows
    rw [List.pairwise_map]
    exact h1.imp fun h => round2_mono h
  · unfold filterRank
    apply sortByLe_pairwise
    · intro a b hab heq
      exact absurd heq (by
        simp only [profitGe, decide_eq_false_iff_not, not_le] at hab
        exact ne_of_gt hab)
    · have hside : (sortByLe sideLe (l.filter fun r =>
          decide (minProfitPerShare ≤ r.actionProfit))).Pairwise
            fun a b => sideLe a b = true :=
        sortByLe_sorted sideLe sideLe_total sideLe_trans _
      have himp : ∀ {a b : ActionRow}, sideLe a b = true →
          (a.actionProfit = b.actionProfit → sideLe a b = true) :=
        fun h _ => h
      exact hside.imp himp

/-! ### Shape of a successful pattern match -/

theorem searchPat_some (patAt : List Char → Option (String × String))
    (cs : List Char) (g : String × String) (h : searchPat patAt cs = some g) :
    ∃ cs', patAt cs' = some g := by
  induction cs with
  | nil => exact ⟨[], h⟩
  | cons c cs ih =>
    simp only [searchPat] at h
    split at h
    · rename_i g' hg
      cases h
      exact ⟨c :: cs, hg⟩
    · exact ih h

theorem senateAt_shape (cs : List Char) (g : String × String)
    (h : senateAt cs = some g) :
    ∃ a b, isUpperAZ a = true ∧ isUpperAZ b = true ∧
      g = (String.mk [a, b], "Sen") := by
  unfold senateAt at h
  split at h
  · exact absurd h (by simp)
  · split at h
    · rename_i a b cs₂ heq
      split at h
      · rename_i hup
        split at h
        · exact absurd h (by simp)
        · cases h
          rcases Bool.and_eq_true .. ▸ hup with ⟨ha, hb⟩
          exact ⟨a, b, ha, hb, rfl⟩
      · exact absurd h (by simp)
    all_goals exact absurd h (by simp)

theorem governorAt_shape (cs : List Char) (g : String × String)
    (h : governorAt cs = some g) :
    ∃ a b, isUpperAZ a = true ∧ isUpperAZ b = true ∧
      g = (String.mk [a, b], "gov") := by
  unfold governorAt at h
  split at h
  · exact absurd h (by simp)
  · split at h
    · rename_i a b cs₂ heq
      split at h
      · rename_i hup
        split at h
        · exact absurd h (by simp)
        · cases h
          rcases Bool.and_eq_true .. ▸ hup with ⟨ha, hb⟩
          exact ⟨a, b, ha, hb, rfl⟩
      · exact absurd h (by simp)
    all_goals exact absurd h (by simp)

theorem chamberSearch_shape (ch : Chamber) (s : String) (g : String × String)
    (h : chamberSearch ch s = some g) :
    ∃ a b, isUpperAZ a = true ∧ isUpperAZ b = true ∧
      g = (String.mk [a, b], tokStr ch) := by
  cases ch
  · obtain ⟨cs', hcs⟩ := searchPat_some senateAt s.data g h
    exact senateAt_shape cs' g hcs
  · obtain ⟨cs', hcs⟩ := searchPat_some governorAt s.data g h
    exact governorAt_shape cs' g hcs

/-! ### Upper-casing a matched race key -/

theorem upChar_of_upper (c : Char) (h : isUpperAZ c = true) : upChar c = c := by
  simp only [isUpperAZ, Bool.and_eq_true, decide_eq_true_eq] at h
  unfold upChar
  rw [if_neg]
  omega

theorem upperStr_key (ch : Chamber) (a b : Char) (ha : isUpperAZ a = true)
    (hb : isUpperAZ b = true) :
    upperStr (String.mk [a, b] ++ "-" ++ tokStr ch) =
      raceKeyOf ch (String.mk [a, b]) := by
  have hd : upChar '-' = '-' := by decide
  cases ch
  · show String.mk (List.map upChar [a, b, '-', 'S', 'e', 'n']) = _
    have hS : upChar 'S' = 'S' := by decide
    have he : upChar 'e' = 'E' := by decide
    have hn : upChar 'n' = 'N' := by decide
    simp only [List.map, upChar_of_upper a ha, upChar_of_upper b hb, hd, hS,
      he, hn]
    rfl
  · show String.mk (List.map upChar [a, b, '-', 'g', 'o', 'v']) = _
    have hg : upChar 'g' = 'G' := by decide
    have ho : upChar 'o' = 'O' := by decide
    have hv : upChar 'v' = 'V' := by decide
    simp only [List.map, upChar_of_upper a ha, upChar_of_upper b hb, hd, hg,
      ho, hv]
    rfl

theorem raceKeyOf_inj (ch : Chamber) {s t : String}
    (h : raceKeyOf ch s = raceKeyOf ch t) : s = t := by
  unfold raceKeyOf at h
  have hdata := congrArg String.data h
  rw [String.data_append, String.data_append, String.data_append,
    String.data_append] at hdata
  have := List.append_cancel_right (List.append_cancel_right hdata)
  exact String.toList_inj.mp this

/-! ### State and seat columns of a tagged row -/

theorem tagRow_state_seat (ch : Chamber) (p : PiRow) :
    ((tagRow ch p).state = none ∧ (tagRow ch p).seat = none) ∨
      ∃ st, (tagRow ch p).state = some st ∧
        (tagRow ch p).seat = some (raceKeyOf ch st) := by
  rcases hm : chamberSearch ch p.mshortName with _ | g
  · left
    constructor <;> simp [tagRow, hm]
  · right
    obtain ⟨a, b, ha, hb, hg⟩ := chamberSearch_shape ch _ g hm
    refine ⟨String.mk [a, b], ?_, ?_⟩
    · simp [tagRow, hm, hg]
    · simp only [tagRow, hm, Option.map_some']
      rw [hg]
      simp only [Option.some.injEq]
      exact upperStr_key ch a b ha hb

/-- C7: membership in the joiner's output is exactly: a Democrat-party and a
Republican-party tagged contract row agreeing on (market name, market URL,
race key), inner-joined with a forecast record whose race key (its state
code completed with the chamber token) equals theirs; unmatched rows simply
produce no output row. -/
theorem c7_joiner (piData : List PiRow) (ch : Chamber) (fte : List FteRow)
    (j : JoinedRace) :
    j ∈ mergeFteAndPi piData ch fte ↔
      ∃ d ∈ piData.map (tagRow ch), ∃ r ∈ piData.map (tagRow ch), ∃ f ∈ fte,
        d.cname = "Democratic" ∧ r.cname = "Republican" ∧
        d.mshortName = r.mshortName ∧ d.murl = r.murl ∧
        (∃ k, d.seat = some k ∧ r.seat = some k ∧
          raceKeyOf ch f.state = k) ∧
        j = mkJoined d r f := by
  constructor
  · intro hj
    simp only [mergeFteAndPi] at hj
    rcases List.mem_flatMap.mp hj with ⟨d, hd, hj⟩
    rcases List.mem_flatMap.mp hj with ⟨r, hr, hj⟩
    rcases List.mem_map.mp hj with ⟨f, hf, hjEq⟩
    rcases List.mem_filter.mp hd with ⟨hdPi, hdName⟩
    rcases List.mem_filter.mp hr with ⟨hrRep, hrCond⟩
    rcases List.mem_filter.mp hrRep with ⟨hrPi, hrName⟩
    rcases List.mem_filter.mp hf with ⟨hfMem, hfCond⟩
    rcases List.mem_filter.mp hdPi with ⟨hdMap, hdSome⟩
    rcases List.mem_filter.mp hrPi with ⟨hrMap, _⟩
    simp only [Bool.and_eq_true, beq_iff_eq] at hdName hrName hrCond hfCond
    rcases List.mem_map.mp hdMap with ⟨pd, _, hdEq⟩
    have hshape := tagRow_state_seat ch pd
    rw [hdEq] at hshape
    rcases hshape with ⟨hn, _⟩ | ⟨st, hst, hseat⟩
    · rw [hn] at hdSome
      simp at hdSome
    · have hstf : st = f.state := by
        rw [hst] at hfCond
        exact Option.some.inj hfCond
      refine ⟨d, hdMap, r, hrMap, f, hfMem, hdName, hrName,
        hrCond.1.1.1.symm, hrCond.1.1.2.symm,
        ⟨raceKeyOf ch st, hseat, ?_, ?_⟩, hjEq.symm⟩
      · rw [hrCond.2, hseat]
      · rw [← hstf]
  · rintro ⟨d, hdMap, r, hrMap, f, hfMem, hdName, hrName, hName, hUrl,
      ⟨k, hdSeat, hrSeat, hk⟩, hjEq⟩
    rcases List.mem_map.mp hdMap with ⟨pd, _, hdEq⟩
    rcases List.mem_map.mp hrMap with ⟨pr, _, hrEq⟩
    have hshaped := tagRow_state_seat ch pd
    rw [hdEq] at hshaped
    have hshaper := tagRow_state_seat ch pr
    rw [hrEq] at hshaper
    rcases hshaped with ⟨_, hn⟩ | ⟨st, hst, hseat⟩
    · rw [hn] at hdSeat
      simp at hdSeat
    rcases hshaper with ⟨_, hn⟩ | ⟨st2, hst2, hseat2⟩
    · rw [hn] at hrSeat
      simp at hrSeat
    have hks : k = raceKeyOf ch st := by
      rw [hseat] at hdSeat
      exact (Option.some.inj hdSeat).symm
    have hks2 : k = raceKeyOf ch st2 := by
      rw [hseat2] at hrSeat
      exact (Option.some.inj hrSeat).symm
    have hst12 : st = st2 := raceKeyOf_inj ch (hks ▸ hks2)
    have hfst : f.state = st := raceKeyOf_inj ch (by rw [hk, hks])
    simp only [mergeFteAndPi]
    apply List.mem_flatMap.mpr
    refine ⟨d, ?_, ?_⟩
    · exact List.mem_filter.mpr ⟨List.mem_filter.mpr ⟨hdMap, by simp [hst]⟩,
        by simp [hdName]⟩
    · apply List.mem_flatMap.mpr
      refine ⟨r, ?_, ?_⟩
      · apply List.mem_filter.mpr
        refine ⟨List.mem_filter.mpr ⟨List.mem_filter.mpr
            ⟨hrMap, by simp [hst2]⟩, by simp [hrName]⟩, ?_⟩
        simp only [Bool.and_eq_true, beq_iff_eq]
        refine ⟨⟨⟨hName.symm, hUrl.symm⟩, ?_⟩, ?_⟩
        · rw [hst, hst2, hst12]
        · rw [hdSeat, hrSeat]
      · apply List.mem_map.mpr
        refine ⟨f, List.mem_filter.mpr ⟨hfMem, ?_⟩, hjEq.symm⟩
        simp only [beq_iff_eq]
        rw [hst, hfst]

/-- A contract row labelled with the spec's example market question. -/
def pOH : PiRow :=
  { mshortName := "Which party will win the OH Senate race"
    murl := "https://www.predictit.org/markets/detail/1"
    cname := "Democratic"
    bestBuyYesCost := none
    bestBuyNoCost := none
    bestSellYesCost := none
    bestSellNoCost := none }

/-- A contract row with a label matching no pattern. -/
def pHello : PiRow :=
  { pOH with mshortName := "hello" }

/-- C8: the senate pattern on "Which party will win the OH Senate race"
captures ("OH", "Sen") and tags the row with RaceKey "OH-SEN"; a label the
pattern does not match leaves both the state and the seat null, and such a
row is excluded from the join input (never an error). -/
theorem c8_race_identifier :
    (chamberSearch Chamber.senate
          "Which party will win the OH Senate race" = some ("OH", "Sen") ∧
        (tagRow Chamber.senate pOH).state = some "OH" ∧
        (tagRow Chamber.senate pOH).seat = some "OH-SEN") ∧
      (∀ ch p, chamberSearch ch p.mshortName = none →
        (tagRow ch p).state = none ∧ (tagRow ch p).seat = none) ∧
      (∀ ch p piData, chamberSearch ch p.mshortName = none →
        tagRow ch p ∉ filteredPi piData ch) := by
  refine ⟨⟨by decide, by decide, by decide⟩, ?_, ?_⟩
  · intro ch p h
    constructor <;> simp [tagRow, h]
  · intro ch p piData h hmem
    have hstate : (tagRow ch p).state = none := by simp [tagRow, h]
    have := (List.mem_filter.mp hmem).2
    rw [hstate] at this
    simp at this

/-- Witness for C8: the non-matching label "hello" is tagged with null state
and seat and its row is excluded from the join input. -/
theorem c8_race_identifier_witness :
    ((tagRow Chamber.senate pHello).state = none ∧
        (tagRow Chamber.senate pHello).seat = none) ∧
      tagRow Chamber.senate pHello ∉ filteredPi [pHello] Chamber.senate :=
  ⟨c8_race_identifier.2.1 Chamber.senate pHello (by decide),
    c8_race_identifier.2.2 Chamber.senate pHello [pHello] (by decide)⟩

/-- Witness for C1: the buy-yes-D profit of the example row is 0.60 − 0.40
and defined exactly because its price is present. -/
theorem c1_profit_formulas_witness :
    profitOf (add_profit_columns jr2) Dir.buy (Side.yes, Party.D) =
        specProfit jr2 Dir.buy (Side.yes, Party.D) ∧
      (profitOf (add_profit_columns jr2) Dir.buy (Side.yes, Party.D) =
          none ↔
        priceOf jr2 Dir.buy (Side.yes, Party.D) = none) :=
  c1_profit_formulas jr2 Dir.buy (Side.yes, Party.D)

/-- Witness for C6's amended ordering statement on a singleton input. -/
theorem c6_sort_order_witness :
    ((filterRank [ar2]).Pairwise fun a b =>
        b.actionProfit ≤ a.actionProfit) ∧
      ((finalizeRows [ar2]).Pairwise fun a b =>
        b.actionProfit ≤ a.actionProfit) ∧
      ((filterRank [ar2]).Pairwise fun a b =>
        a.actionProfit = b.actionProfit → sideLe a b = true) :=
  c6_sort_order [ar2]

/-- The Democratic contract row of the sample OH senate market. -/
def piDem : PiRow :=
  { mshortName := "Which party will win the OH Senate race"
    murl := "https://www.predictit.org/markets/detail/7"
    cname := "Democratic"
    bestBuyYesCost := some (40 / 100)
    bestBuyNoCost := some (55 / 100)
    bestSellYesCost := some (62 / 100)
    bestSellNoCost := some (45 / 100) }

/-- The Republican contract row of the sample OH senate market. -/
def piRep : PiRow :=
  { piDem with
    cname := "Republican"
    bestBuyYesCost := some (55 / 100)
    bestBuyNoCost := some (42 / 100)
    bestSellYesCost := some (50 / 100)
    bestSellNoCost := some (58 / 100) }

/-- A prepared forecast record for the OH race. -/
def fteOH : FteRow :=
  { state := "OH", fteD := 60 / 100, fteR := 40 / 100 }

/-- Witness for C7: the sample D/R contract pair joined with the OH
forecast is produced by the joiner. -/
theorem c7_joiner_witness :
    mkJoined (tagRow Chamber.senate piDem) (tagRow Chamber.senate piRep)
        fteOH ∈
      mergeFteAndPi [piDem, piRep] Chamber.senate [fteOH] :=
  (c7_joiner [piDem, piRep] Chamber.senate [fteOH] _).mpr
    ⟨tagRow Chamber.senate piDem, by decide, tagRow Chamber.senate piRep,
      by decide, fteOH, by decide, by decide, by decide, by decide,
      by decide, ⟨"OH-SEN", by decide, by decide, by decide⟩, rfl⟩

/-- The contract row the sample market contributes for its Democratic
contract. -/
def rowD3 : PiRow :=
  { mshortName := "Which party will win the OH Senate race"
    murl := "https://www.predictit.org/markets/detail/1"
    cname := "Democratic"
    bestBuyYesCost := none
    bestBuyNoCost := none
    bestSellYesCost := some (70 / 100)
    bestSellNoCost := some (45 / 100) }

/-- Witness for C10: on the sample payload the contract table is
duplicate-free and contains the Democratic contract row exactly as the raw
rows do. -/
theorem c10_contract_dedup_witness :
    (getPiMarkets ms3).Nodup ∧
      (rowD3 ∈ getPiMarkets ms3 ↔ rowD3 ∈ rawContractRows ms3) ∧
      rowD3 ∈ getPiMarkets ms3 :=
  ⟨(c10_contract_dedup ms3).1, (c10_contract_dedup ms3).2 rowD3,
    ((c10_contract_dedup ms3).2 rowD3).mpr (by decide)⟩
